import Mathlib

/-!
# Verification of the Chat-RAG-Local retrieval core

Shallow embedding of the repository's retrieval-and-generation pipeline:

* `src/services/vectorStore.js` — the SQLite-backed vector index
  (`insertChunk`, `insertChunksBatch`, `cosineSimilarity`, `searchSimilar`,
  `getDocumentStats`).  The `documents` table is modelled as a list of rows
  in rowid (insertion) order; `INSERT OR REPLACE` deletes any row with the
  same primary key and appends the fresh row at the end, which is exactly
  SQLite's behaviour (the replaced row receives a new rowid).  JavaScript
  numbers are idealised as real numbers.
* the semantic chunking module (`splitIntoSemanticChunks`,
  `splitLongSentenceByWords`) — strings are modelled as `List Char`.
* the streaming RAG handler (`handleStreamingRAGResponse`) — the SSE side
  effects are modelled as the list of events written to the response.
-/

namespace ChatRAG

/-! ## Vector store rows

One row of the `documents` table (`src/services/vectorStore.js`).  The
`embedding` column stores a JSON-serialised vector; serialisation is
lossless, so the row directly carries the vector. -/

structure Row where
  id : String
  filename : String
  text : String
  embedding : List ℝ
  page : Option Nat := none
  charStart : Option Nat := none
  charEnd : Option Nat := none

/-- `insertChunk` / one step of `insertChunksBatch`:
`INSERT OR REPLACE INTO documents ... VALUES (...)` — any existing row with
the same primary key `id` is deleted and the new row is appended (SQLite
assigns a fresh rowid to the replacement). -/
def insertChunk (store : List Row) (chunk : Row) : List Row :=
  store.filter (fun r => decide (r.id ≠ chunk.id)) ++ [chunk]

/-- `insertChunksBatch(chunks)`: inserts every chunk, in order, inside one
transaction. -/
def insertChunksBatch (store : List Row) (chunks : List Row) : List Row :=
  chunks.foldl insertChunk store

/-- Per-filename count from `getDocumentStats`
(`SELECT filename, COUNT(*) ... GROUP BY filename`). -/
def fileCount (store : List Row) (f : String) : Nat :=
  (store.filter (fun r => decide (r.filename = f))).length

/-- `SELECT COUNT(*) as total FROM documents`. -/
def totalDocuments (store : List Row) : Nat :=
  store.length

/-- `getDocumentStats()` returns `{totalDocuments, files}` where `files`
maps each filename to its chunk count. -/
def getDocumentStats (store : List Row) : Nat × (String → Nat) :=
  (totalDocuments store, fun f => fileCount store f)

/-! ### Idempotence of batch re-insertion (C9) -/

/-- Inserting one chunk, then keeping only the rows whose id avoids a set of
ids containing the chunk's id, is the same as filtering the original store. -/
theorem filter_insertChunk_of_mem (u : List Row) (c : Row) (ids : List String)
    (hc : c.id ∈ ids) :
    (insertChunk u c).filter (fun r => decide (r.id ∉ ids)) =
      u.filter (fun r => decide (r.id ∉ ids)) := by
  unfold insertChunk
  rw [List.filter_append, List.filter_filter]
  have hcf : (fun r : Row => decide (r.id ∉ ids) && decide (r.id ≠ c.id)) =
      fun r : Row => decide (r.id ∉ ids) := by
    funext r
    by_cases h : r.id ∈ ids
    · simp [h]
    · have : r.id ≠ c.id := fun he => h (he ▸ hc)
      simp [h, this]
  rw [hcf]
  simp [hc]

/-- Rows outside the batch's ids are untouched by the whole batch. -/
theorem filter_insertChunksBatch (store : List Row) (chunks : List Row) :
    (insertChunksBatch store chunks).filter
        (fun r => decide (r.id ∉ chunks.map Row.id)) =
      store.filter (fun r => decide (r.id ∉ chunks.map Row.id)) := by
  -- generalize to an arbitrary id set containing all batch ids
  suffices h : ∀ (ids : List String) (s : List Row), (∀ i ∈ chunks.map Row.id, i ∈ ids) →
      (insertChunksBatch s chunks).filter (fun r => decide (r.id ∉ ids)) =
        s.filter (fun r => decide (r.id ∉ ids)) by
    exact h (chunks.map Row.id) store (fun i hi => hi)
  induction chunks with
  | nil => intro ids s _; rfl
  | cons c cs ih =>
    intro ids s hids
    have h1 : insertChunksBatch s (c :: cs) = insertChunksBatch (insertChunk s c) cs := rfl
    rw [h1, ih ids (insertChunk s c) (fun i hi => hids i (by simp [hi])),
      filter_insertChunk_of_mem s c ids (hids c.id (by simp))]

/-- The combined "not this id and outside these ids" filter collapses. -/
theorem filter_decomp_aux (u : List Row) (c : Row) (cs : List Row) :
    (u.filter (fun r => decide (r.id ≠ c.id))).filter
        (fun r => decide (r.id ∉ cs.map Row.id)) =
      u.filter (fun r => decide (r.id ∉ (c :: cs).map Row.id)) := by
  rw [List.filter_filter]
  apply List.filter_congr
  intro a _
  by_cases h1 : a.id = c.id <;> by_cases h2 : a.id ∈ cs.map Row.id <;>
    simp [h1, h2]

/-- Per-filename count after inserting `c`, restricted to ids outside the
remaining batch `cs`, splits off an `s`-independent contribution of `c`. -/
theorem fileCount_insertChunk_split (u : List Row) (c : Row) (cs : List Row)
    (f : String) :
    fileCount ((insertChunk u c).filter (fun r => decide (r.id ∉ cs.map Row.id))) f =
      fileCount (u.filter (fun r => decide (r.id ∉ (c :: cs).map Row.id))) f +
        (if c.id ∉ cs.map Row.id ∧ c.filename = f then 1 else 0) := by
  unfold insertChunk fileCount
  rw [List.filter_append, List.filter_append, List.length_append, filter_decomp_aux]
  congr 1
  by_cases h1 : c.id ∈ cs.map Row.id
  · have h1' : ∃ x ∈ cs, x.id = c.id := by simpa using h1
    have he : List.filter (fun r : Row => decide (r.id ∉ cs.map Row.id)) [c] = [] := by
      simpa using h1'
    rw [he]
    simp [h1]
  · have h1' : ∀ x ∈ cs, ¬x.id = c.id := by simpa using h1
    have he : List.filter (fun r : Row => decide (r.id ∉ cs.map Row.id)) [c] = [c] := by
      simpa using h1'
    rw [he]
    by_cases h2 : c.filename = f <;> simp [h1, h2]

/-- The per-filename count after a batch depends on the prior store only
through the rows whose ids are outside the batch. -/
theorem fileCount_insertChunksBatch_congr (chunks : List Row) :
    ∀ (s t : List Row) (f : String),
      fileCount (s.filter (fun r => decide (r.id ∉ chunks.map Row.id))) f =
        fileCount (t.filter (fun r => decide (r.id ∉ chunks.map Row.id))) f →
      fileCount (insertChunksBatch s chunks) f = fileCount (insertChunksBatch t chunks) f := by
  induction chunks with
  | nil =>
    intro s t f h
    simpa [insertChunksBatch, fileCount] using h
  | cons c cs ih =>
    intro s t f h
    have hs : insertChunksBatch s (c :: cs) = insertChunksBatch (insertChunk s c) cs := rfl
    have ht : insertChunksBatch t (c :: cs) = insertChunksBatch (insertChunk t c) cs := rfl
    rw [hs, ht]
    apply ih
    rw [fileCount_insertChunk_split s c cs f, fileCount_insertChunk_split t c cs f, h]

/-- Row count after inserting `c`, restricted to ids outside the remaining
batch `cs`, splits off an `s`-independent contribution of `c`. -/
theorem length_insertChunk_split (u : List Row) (c : Row) (cs : List Row) :
    ((insertChunk u c).filter (fun r => decide (r.id ∉ cs.map Row.id))).length =
      (u.filter (fun r => decide (r.id ∉ (c :: cs).map Row.id))).length +
        (if c.id ∉ cs.map Row.id then 1 else 0) := by
  unfold insertChunk
  rw [List.filter_append, List.length_append, filter_decomp_aux]
  congr 1
  by_cases h1 : c.id ∈ cs.map Row.id
  · have h1' : ∃ x ∈ cs, x.id = c.id := by simpa using h1
    have he : List.filter (fun r : Row => decide (r.id ∉ cs.map Row.id)) [c] = [] := by
      simpa using h1'
    rw [he]
    simp [h1]
  · have h1' : ∀ x ∈ cs, ¬x.id = c.id := by simpa using h1
    have he : List.filter (fun r : Row => decide (r.id ∉ cs.map Row.id)) [c] = [c] := by
      simpa using h1'
    rw [he]
    simp [h1]

/-- The total row count after a batch depends on the prior store only
through the rows whose ids are outside the batch. -/
theorem length_insertChunksBatch_congr (chunks : List Row) :
    ∀ s t : List Row,
      (s.filter (fun r => decide (r.id ∉ chunks.map Row.id))).length =
        (t.filter (fun r => decide (r.id ∉ chunks.map Row.id))).length →
      (insertChunksBatch s chunks).length = (insertChunksBatch t chunks).length := by
  induction chunks with
  | nil =>
    intro s t h
    simpa [insertChunksBatch] using h
  | cons c cs ih =>
    intro s t h
    have hs : insertChunksBatch s (c :: cs) = insertChunksBatch (insertChunk s c) cs := rfl
    have ht : insertChunksBatch t (c :: cs) = insertChunksBatch (insertChunk t c) cs := rfl
    rw [hs, ht]
    apply ih
    rw [length_insertChunk_split s c cs, length_insertChunk_split t c cs, h]

/-- C9: re-ingesting the same source with identical content and identical
fragment ids overwrites the existing fragments without creating duplicates —
after the second batch insert, the `stats()` per-source fragment counts and
the total count are unchanged from before it. -/
theorem reingest_stats_unchanged (store chunks : List Row) :
    (∀ f, fileCount (insertChunksBatch (insertChunksBatch store chunks) chunks) f =
      fileCount (insertChunksBatch store chunks) f) ∧
    totalDocuments (insertChunksBatch (insertChunksBatch store chunks) chunks) =
      totalDocuments (insertChunksBatch store chunks) := by
  constructor
  · intro f
    apply fileCount_insertChunksBatch_congr
    rw [filter_insertChunksBatch]
  · unfold totalDocuments
    apply length_insertChunksBatch_congr
    rw [filter_insertChunksBatch]

/-! ## Cosine similarity

`cosineSimilarity(a, b)` loops `i` from `0` to `a.length - 1`, accumulating
`a[i]*b[i]`, `a[i]*a[i]` and `b[i]*b[i]`, takes square roots, and returns
`0` when either magnitude is zero.  JavaScript floats are idealised as real
numbers.

The function is embedded twice:
* `cosineSimilarityJs` is the full-fidelity model over `JsNum` (a real or
  `NaN`): an out-of-range read `b[i]` (only possible when `b` is shorter
  than `a`) is `undefined`, arithmetic on it yields `NaN`, and `NaN`
  propagates through the accumulators, the square roots, the `=== 0` tests
  (false on `NaN`) and the division — so a stored vector shorter than the
  query yields `NaN` exactly as the code does (`cosineSimilarityJs_nan_on_short`).
* `cosineSimilarity` is the real-valued restriction to the in-range regime
  `a.length ≤ b.length`, where the loop reads only `b[0] … b[a.length - 1]`;
  `cosineSimilarityJs_agrees` proves the two coincide on that whole regime.
  Every theorem stated over `cosineSimilarity` keeps to that regime. -/

/-- A JavaScript number in this code path: `NaN` or a real value. -/
inductive JsNum where
  | nan : JsNum
  | val : ℝ → JsNum

/-- Addition; `NaN` propagates (also the result of `x + undefined`). -/
noncomputable def jsAdd : JsNum → JsNum → JsNum
  | JsNum.val x, JsNum.val y => JsNum.val (x + y)
  | _, _ => JsNum.nan

/-- Multiplication; `NaN` propagates (also the result of `x * undefined`). -/
noncomputable def jsMul : JsNum → JsNum → JsNum
  | JsNum.val x, JsNum.val y => JsNum.val (x * y)
  | _, _ => JsNum.nan

/-- `Math.sqrt`: `NaN` on `NaN` and on negative inputs. -/
noncomputable def jsSqrt : JsNum → JsNum
  | JsNum.nan => JsNum.nan
  | JsNum.val x => if x < 0 then JsNum.nan else JsNum.val (Real.sqrt x)

/-- `x === 0`: false for `NaN`. -/
noncomputable def jsEqZero : JsNum → Bool
  | JsNum.nan => false
  | JsNum.val x => decide (x = 0)

/-- Division; `NaN` propagates.  (The zero-divisor branch is unreachable
here: the `=== 0` guard rejects a zero real magnitude before dividing.) -/
noncomputable def jsDiv : JsNum → JsNum → JsNum
  | JsNum.val x, JsNum.val y => if y = 0 then JsNum.nan else JsNum.val (x / y)
  | _, _ => JsNum.nan

/-- The array read `b[i]`: `undefined` outside the array, which any
arithmetic turns into `NaN`. -/
def jsIndex (b : List ℝ) (i : Nat) : JsNum :=
  match b[i]? with
  | some x => JsNum.val x
  | none => JsNum.nan

/-- The accumulator loop of `cosineSimilarity` over `i < a.length`, reading
`b[i]` with JavaScript semantics: `(dotProduct, magnitudeA, magnitudeB)`
accumulators before the square roots.  (The code folds from the left; since
real addition is commutative-associative and `NaN` absorbs in any order,
folding from the right is extensionally identical.) -/
noncomputable def cosineLoopJs (b : List ℝ) : Nat → List ℝ → JsNum × JsNum × JsNum
  | _, [] => (JsNum.val 0, JsNum.val 0, JsNum.val 0)
  | i, x :: a =>
    let rest := cosineLoopJs b (i + 1) a
    (jsAdd (jsMul (JsNum.val x) (jsIndex b i)) rest.1,
     jsAdd (jsMul (JsNum.val x) (JsNum.val x)) rest.2.1,
     jsAdd (jsMul (jsIndex b i) (jsIndex b i)) rest.2.2)

/-- `cosineSimilarity(a, b)` with full JavaScript `NaN` semantics. -/
noncomputable def cosineSimilarityJs (a b : List ℝ) : JsNum :=
  let acc := cosineLoopJs b 0 a
  let magnitudeA := jsSqrt acc.2.1
  let magnitudeB := jsSqrt acc.2.2
  if jsEqZero magnitudeA || jsEqZero magnitudeB then JsNum.val 0
  else jsDiv acc.1 (jsMul magnitudeA magnitudeB)

/-- The accumulated `dotProduct`, restricted to the in-range regime: `a[i] *
b[i]` summed over `i < a.length` (see `cosineSimilarityJs_agrees` for the
proof that this matches the `JsNum` loop whenever `a.length ≤ b.length`). -/
noncomputable def dotProduct : List ℝ → List ℝ → ℝ
  | [], _ => 0
  | x :: a, b => x * b.headD 0 + dotProduct a b.tail

/-- Sum of squares of a vector (the `magnitude` accumulators before `sqrt`). -/
def sumSq (a : List ℝ) : ℝ :=
  (a.map (fun x => x * x)).sum

/-- `cosineSimilarity(a, b)` on the in-range regime `a.length ≤ b.length`
(`cosineSimilarityJs_agrees`); the `magnitudeB` accumulator only sees
`b[0] … b[a.length - 1]`, hence `b.take a.length`. -/
noncomputable def cosineSimilarity (a b : List ℝ) : ℝ :=
  let dp := dotProduct a b
  let magnitudeA := Real.sqrt (sumSq a)
  let magnitudeB := Real.sqrt (sumSq (b.take a.length))
  if magnitudeA = 0 ∨ magnitudeB = 0 then 0
  else dp / (magnitudeA * magnitudeB)

theorem sumSq_nonneg (a : List ℝ) : 0 ≤ sumSq a := by
  apply List.sum_nonneg
  intro x hx
  obtain ⟨y, _, rfl⟩ := List.mem_map.1 hx
  exact mul_self_nonneg y

theorem dotProduct_self (a : List ℝ) : dotProduct a a = sumSq a := by
  induction a with
  | nil => simp [dotProduct, sumSq]
  | cons x t ih => simp [dotProduct, sumSq, List.sum_cons] at ih ⊢; rw [ih]

theorem sumSq_pos (a : List ℝ) (x : ℝ) (hx : x ∈ a) (hx0 : x ≠ 0) : 0 < sumSq a := by
  have hle : x * x ≤ sumSq a := by
    apply List.single_le_sum (fun y hy => ?_) _ (List.mem_map_of_mem _ hx)
    obtain ⟨z, _, rfl⟩ := List.mem_map.1 hy
    exact mul_self_nonneg z
  exact lt_of_lt_of_le (mul_self_pos.2 hx0) hle

theorem dotProduct_nil_right (a : List ℝ) : dotProduct a [] = 0 := by
  induction a with
  | nil => rfl
  | cons x t ih => simp [dotProduct, ih]

theorem dotProduct_zero_right (a : List ℝ) (b : List ℝ) (hb : ∀ y ∈ b, y = 0) :
    dotProduct a b = 0 := by
  induction a generalizing b with
  | nil => rfl
  | cons x t ih =>
    cases b with
    | nil => simpa using dotProduct_nil_right (x :: t)
    | cons y b' =>
      have hy : y = 0 := hb y (by simp)
      have : dotProduct t b' = 0 := ih b' (fun z hz => hb z (by simp [hz]))
      simp [dotProduct, hy, this]

theorem cosineSimilarity_self (v : List ℝ) (h : ∃ x ∈ v, x ≠ 0) :
    cosineSimilarity v v = 1 := by
  obtain ⟨x, hx, hx0⟩ := h
  have hpos : 0 < sumSq v := sumSq_pos v x hx hx0
  have hsqrt : Real.sqrt (sumSq v) ≠ 0 := by
    have := Real.sqrt_pos.2 hpos
    exact ne_of_gt this
  unfold cosineSimilarity
  rw [List.take_length, dotProduct_self]
  rw [if_neg (by push_neg; exact ⟨hsqrt, hsqrt⟩)]
  rw [Real.mul_self_sqrt hpos.le]
  exact div_self (ne_of_gt hpos)

theorem cosineSimilarity_zero_right (v : List ℝ) (n : Nat) :
    cosineSimilarity v (List.replicate n (0 : ℝ)) = 0 := by
  have hsq : sumSq ((List.replicate n (0 : ℝ)).take v.length) = 0 := by
    apply List.sum_eq_zero
    intro x hx
    obtain ⟨y, hy, rfl⟩ := List.mem_map.1 hx
    have : y = 0 :=
      List.eq_of_mem_replicate (List.take_subset _ _ hy)
    simp [this]
  unfold cosineSimilarity
  rw [hsq, Real.sqrt_zero, if_pos (Or.inr rfl)]

/-- The `JsNum` loop over in-range indices produces exactly the real-valued
accumulators: no out-of-range read happens, so no `NaN` arises. -/
theorem cosineLoopJs_inBounds (b : List ℝ) :
    ∀ (a : List ℝ) (i : Nat), i + a.length ≤ b.length →
      cosineLoopJs b i a =
        (JsNum.val (dotProduct a (b.drop i)), JsNum.val (sumSq a),
          JsNum.val (sumSq ((b.drop i).take a.length))) := by
  intro a
  induction a with
  | nil =>
    intro i _
    simp [cosineLoopJs, dotProduct, sumSq]
  | cons x t ih =>
    intro i h
    have hi : i < b.length := by
      simp only [List.length_cons] at h
      omega
    have hrec := ih (i + 1) (by simp only [List.length_cons] at h; omega)
    have hdrop : b.drop i = b[i] :: b.drop (i + 1) := List.drop_eq_getElem_cons hi
    have hidx : jsIndex b i = JsNum.val b[i] := by
      unfold jsIndex
      rw [List.getElem?_eq_getElem hi]
    rw [cosineLoopJs, hrec, hdrop]
    simp only [hidx, jsAdd, jsMul, Prod.mk.injEq, JsNum.val.injEq]
    refine ⟨?_, ?_, ?_⟩
    · rfl
    · simp [sumSq]
    · simp only [List.length_cons, List.take_succ_cons]
      simp [sumSq]

/-- On the in-range regime the full `NaN`-faithful model agrees with the
real-valued `cosineSimilarity`: the idealisation is exact whenever the
stored vector is at least as long as the query. -/
theorem cosineSimilarityJs_agrees (a b : List ℝ) (h : a.length ≤ b.length) :
    cosineSimilarityJs a b = JsNum.val (cosineSimilarity a b) := by
  have hloop := cosineLoopJs_inBounds b a 0 (by simpa using h)
  simp only [cosineSimilarityJs, cosineSimilarity, hloop, List.drop_zero]
  have hsA : jsSqrt (JsNum.val (sumSq a)) = JsNum.val (Real.sqrt (sumSq a)) := by
    simp only [jsSqrt]
    rw [if_neg (not_lt.2 (sumSq_nonneg a))]
  have hsB : jsSqrt (JsNum.val (sumSq (b.take a.length))) =
      JsNum.val (Real.sqrt (sumSq (b.take a.length))) := by
    simp only [jsSqrt]
    rw [if_neg (not_lt.2 (sumSq_nonneg _))]
  rw [hsA, hsB]
  by_cases hz : Real.sqrt (sumSq a) = 0 ∨ Real.sqrt (sumSq (b.take a.length)) = 0
  · have hcondT : (jsEqZero (JsNum.val (Real.sqrt (sumSq a))) ||
        jsEqZero (JsNum.val (Real.sqrt (sumSq (b.take a.length))))) = true := by
      simp only [jsEqZero]
      rcases hz with hz | hz <;> simp [hz]
    rw [hcondT, if_pos rfl, if_pos hz]
  · push_neg at hz
    have hcondF : (jsEqZero (JsNum.val (Real.sqrt (sumSq a))) ||
        jsEqZero (JsNum.val (Real.sqrt (sumSq (b.take a.length))))) = false := by
      simp only [jsEqZero]
      simp [hz.1, hz.2]
    rw [hcondF]
    have hfalse : ¬ (false = true) := by simp
    rw [if_neg hfalse, if_neg (by push_neg; exact hz)]
    simp only [jsMul, jsDiv]
    rw [if_neg (mul_ne_zero hz.1 hz.2)]

/-- The regime outside `cosineSimilarityJs_agrees` is the `NaN` path: a
stored vector shorter than the query poisons the accumulators and the code
returns `NaN` (which the search's `>= threshold` filter then drops). -/
theorem cosineSimilarityJs_nan_on_short :
    cosineSimilarityJs [(1 : ℝ)] [] = JsNum.nan := by
  have hidx : jsIndex [] 0 = JsNum.nan := rfl
  have hloop : cosineLoopJs [] 0 [(1 : ℝ)] =
      (JsNum.nan, JsNum.val (1 * 1 + 0), JsNum.nan) := by
    rw [cosineLoopJs, cosineLoopJs]
    simp only [hidx, jsAdd, jsMul]
  simp only [cosineSimilarityJs, hloop]
  have h1 : jsSqrt (JsNum.val (1 * 1 + 0)) = JsNum.val 1 := by
    simp only [jsSqrt]
    rw [if_neg (by norm_num)]
    rw [show ((1 : ℝ) * 1 + 0) = 1 by norm_num, Real.sqrt_one]
  have h2 : jsSqrt JsNum.nan = JsNum.nan := rfl
  rw [h1, h2]
  have hcond : (jsEqZero (JsNum.val 1) || jsEqZero JsNum.nan) = false := by
    simp only [jsEqZero]
    simp
  rw [hcond]
  have hfalse : ¬ (false = true) := by simp
  rw [if_neg hfalse]
  simp [jsMul, jsDiv]

/-- C4: over the `NaN`-faithful model, `cosineSimilarity(v, v) = 1` for
nonzero `v`; similarity against a zero vector of (at least) the query's
dimension is `0`; and for every pair of equal-length vectors the result is
never `NaN` and is either the guarded `0` or a quotient whose denominator
is provably nonzero (the code never divides by zero). -/
theorem cosineSimilarity_exact_spec :
    (∀ v : List ℝ, (∃ x ∈ v, x ≠ 0) → cosineSimilarityJs v v = JsNum.val 1) ∧
    (∀ (v : List ℝ) (n : Nat), v.length ≤ n →
      cosineSimilarityJs v (List.replicate n (0 : ℝ)) = JsNum.val 0) ∧
    (∀ a b : List ℝ, a.length = b.length →
      cosineSimilarityJs a b ≠ JsNum.nan ∧
      (cosineSimilarityJs a b = JsNum.val 0 ∨
        (Real.sqrt (sumSq a) * Real.sqrt (sumSq (b.take a.length)) ≠ 0 ∧
          cosineSimilarityJs a b = JsNum.val (dotProduct a b /
            (Real.sqrt (sumSq a) * Real.sqrt (sumSq (b.take a.length))))))) := by
  refine ⟨?_, ?_, ?_⟩
  · intro v hv
    rw [cosineSimilarityJs_agrees v v (le_refl _), cosineSimilarity_self v hv]
  · intro v n hn
    rw [cosineSimilarityJs_agrees v (List.replicate n (0 : ℝ)) (by simpa using hn),
      cosineSimilarity_zero_right]
  · intro a b hab
    rw [cosineSimilarityJs_agrees a b (le_of_eq hab)]
    refine ⟨by simp, ?_⟩
    unfold cosineSimilarity
    by_cases h : Real.sqrt (sumSq a) = 0 ∨ Real.sqrt (sumSq (b.take a.length)) = 0
    · left
      rw [if_pos h]
    · right
      push_neg at h
      exact ⟨mul_ne_zero h.1 h.2, by rw [if_neg (by push_neg; exact h)]⟩

/-- Witness for `cosineSimilarity_exact_spec` at the concrete vector
`[3, 4]`. -/
theorem cosineSimilarity_exact_spec_witness :
    (∃ x ∈ ([3, 4] : List ℝ), x ≠ 0) ∧
      cosineSimilarityJs [3, 4] [3, 4] = JsNum.val 1 :=
  ⟨⟨3, by norm_num, by norm_num⟩,
    cosineSimilarity_exact_spec.1 [3, 4] ⟨3, by norm_num, by norm_num⟩⟩

/-- C8 (amended): a stored embedding longer than the query is silently
truncated — components beyond the query's length never influence the
similarity, and no error is raised. -/
theorem cosineSimilarity_ignores_extra (a b c : List ℝ) (h : a.length ≤ b.length) :
    cosineSimilarity a (b ++ c) = cosineSimilarity a b := by
  have hdp : ∀ (a b : List ℝ), a.length ≤ b.length →
      dotProduct a (b ++ c) = dotProduct a b := by
    intro a
    induction a with
    | nil => intro b _; rfl
    | cons x t ih =>
      intro b hb
      cases b with
      | nil => simp at hb
      | cons y b' =>
        have := ih b' (by simpa using hb)
        simp [dotProduct, this]
  unfold cosineSimilarity
  rw [hdp a b h, List.take_append_of_le_length h]

/-- Witness for `cosineSimilarity_ignores_extra` with query `[1]` against a
2-component stored embedding. -/
theorem cosineSimilarity_ignores_extra_witness :
    ([(1 : ℝ)].length ≤ [(1 : ℝ)].length) ∧
      cosineSimilarity [(1 : ℝ)] ([1] ++ [5]) = cosineSimilarity [1] [1] :=
  ⟨le_refl _, cosineSimilarity_ignores_extra [1] [1] [5] (le_refl _)⟩

/-! ## Similarity search

`searchSimilar(queryEmbedding, topK, similarityThreshold, filenameFilter)`:
select the candidate rows (optionally restricted to one filename — the
`SELECT` without `ORDER BY` returns rows in rowid order, i.e. insertion
order), score each with `cosineSimilarity`, filter by the threshold, sort
descending by similarity and return the first `topK`.  JavaScript's
`Array.prototype.sort` is stable and orders by the comparator
`(a, b) => b.similarity - a.similarity`; a stable insertion sort with the
relation "`b.similarity ≤ a.similarity`" realises exactly that contract. -/

structure SearchResult where
  id : String
  filename : String
  text : String
  similarity : ℝ
  page : Option Nat
  charStart : Option Nat
  charEnd : Option Nat

/-- The sort order of the comparator `(a, b) => b.similarity - a.similarity`:
`a` precedes `b` when `b.similarity ≤ a.similarity`. -/
def simDescRel (a b : SearchResult) : Prop :=
  b.similarity ≤ a.similarity

noncomputable instance : DecidableRel simDescRel :=
  fun a b => Real.decidableLE b.similarity a.similarity

instance : IsTotal SearchResult simDescRel :=
  ⟨fun a b => le_total b.similarity a.similarity⟩

instance : IsTrans SearchResult simDescRel :=
  ⟨fun _ _ _ h1 h2 => le_trans h2 h1⟩

/-- The `documents.map(doc => ({...doc fields, similarity}))` stage of
`searchSimilar`, including the optional filename filter of the `SELECT`. -/
noncomputable def scoredResults (store : List Row) (queryEmbedding : List ℝ)
    (filenameFilter : Option String) : List SearchResult :=
  let documents : List Row := match filenameFilter with
    | some f => store.filter (fun r => decide (r.filename = f))
    | none => store
  documents.map (fun doc =>
    { id := doc.id
      filename := doc.filename
      text := doc.text
      similarity := cosineSimilarity queryEmbedding doc.embedding
      page := doc.page
      charStart := doc.charStart
      charEnd := doc.charEnd })

/-- `searchSimilar`: score, filter by threshold, stable-sort descending by
similarity, take the first `topK`. -/
noncomputable def searchSimilar (store : List Row) (queryEmbedding : List ℝ)
    (topK : Nat) (similarityThreshold : ℝ) (filenameFilter : Option String) :
    List SearchResult :=
  ((((scoredResults store queryEmbedding filenameFilter).filter
        (fun r => decide (similarityThreshold ≤ r.similarity))).insertionSort
      simDescRel).take topK)

/-- Stability of one ordered insertion: restricted to any fixed similarity
value, inserting `x` behaves like prepending `x`. -/
theorem filter_orderedInsert_simEq (s : ℝ) (x : SearchResult) (l : List SearchResult) :
    (List.orderedInsert simDescRel x l).filter (fun r => decide (r.similarity = s)) =
      (x :: l).filter (fun r => decide (r.similarity = s)) := by
  induction l with
  | nil => rfl
  | cons y ys ih =>
    by_cases hxy : simDescRel x y
    · simp [List.orderedInsert, hxy]
    · have hlt : x.similarity < y.similarity := by
        unfold simDescRel at hxy
        exact lt_of_not_le hxy
      rw [List.orderedInsert, if_neg hxy]
      by_cases hy : y.similarity = s
      · have hx : ¬ x.similarity = s := by
          intro hxs
          rw [hxs, hy] at hlt
          exact lt_irrefl _ hlt
        simp only [List.filter_cons, ih]
        simp [hx, hy]
      · simp only [List.filter_cons, ih]
        simp [hy]

/-- Stability of the whole sort: restricted to any fixed similarity value,
the sorted list preserves the input (insertion) order. -/
theorem filter_insertionSort_simEq (s : ℝ) (l : List SearchResult) :
    (l.insertionSort simDescRel).filter (fun r => decide (r.similarity = s)) =
      l.filter (fun r => decide (r.similarity = s)) := by
  induction l with
  | nil => rfl
  | cons x xs ih =>
    rw [List.insertionSort, filter_orderedInsert_simEq, List.filter_cons,
      List.filter_cons, ← ih]

/-- C1: `searchSimilar` returns at most `topK` results, every result clears
the similarity floor, results are sorted non-increasing by similarity, and
ties are broken by insertion order (for every similarity value, the returned
results restricted to that value form a prefix of the floor-filtered
candidates restricted to that value, in candidate order). -/
theorem searchSimilar_spec (store : List Row) (q : List ℝ) (topK : Nat)
    (th : ℝ) (fl : Option String) :
    (searchSimilar store q topK th fl).length ≤ topK ∧
    (∀ r ∈ searchSimilar store q topK th fl, th ≤ r.similarity) ∧
    (searchSimilar store q topK th fl).Pairwise
      (fun a b => b.similarity ≤ a.similarity) ∧
    (∀ s : ℝ,
      (searchSimilar store q topK th fl).filter (fun r => decide (r.similarity = s)) <+:
        ((scoredResults store q fl).filter
            (fun r => decide (th ≤ r.similarity))).filter
          (fun r => decide (r.similarity = s))) := by
  refine ⟨?_, ?_, ?_, ?_⟩
  · exact List.length_take_le _ _
  · intro r hr
    have h1 : r ∈ (((scoredResults store q fl).filter
        (fun r => decide (th ≤ r.similarity))).insertionSort simDescRel) :=
      List.take_subset _ _ hr
    have h2 : r ∈ ((scoredResults store q fl).filter
        (fun r => decide (th ≤ r.similarity))) :=
      (List.perm_insertionSort simDescRel _).subset h1
    have := List.of_mem_filter h2
    simpa using this
  · have hsorted : (((scoredResults store q fl).filter
        (fun r => decide (th ≤ r.similarity))).insertionSort simDescRel).Pairwise
          simDescRel :=
      List.sorted_insertionSort simDescRel _
    exact (hsorted.sublist (List.take_sublist _ _)).imp (fun h => h)
  · intro s
    have hpref : (searchSimilar store q topK th fl).filter
        (fun r => decide (r.similarity = s)) <+:
        ((((scoredResults store q fl).filter
            (fun r => decide (th ≤ r.similarity))).insertionSort
          simDescRel).filter (fun r => decide (r.similarity = s))) :=
      (List.take_prefix _ _).filter _
    rw [filter_insertionSort_simEq] at hpref
    exact hpref

/-- Witness for `searchSimilar_spec`: its conclusion instantiated at a
concrete one-row store. -/
theorem searchSimilar_spec_witness :
    (searchSimilar [(⟨"d1", "f.pdf", "t", [1, 0], none, none, none⟩ : Row)]
      [1, 0] 2 (1/2) none).length ≤ 2 :=
  (searchSimilar_spec _ _ _ _ _).1

/-- C8 counterexample: a stored embedding of length 2 against a query of
length 1 — the lengths differ, yet `searchSimilar` raises no error and
returns the row with a silently computed similarity score of `1`. -/
theorem searchSimilar_mismatch_no_error :
    ([(1 : ℝ)].length ≠ [(1 : ℝ), 0].length) ∧
      searchSimilar [(⟨"doc1", "a.pdf", "hello", [1, 0], none, none, none⟩ : Row)]
          [1] 3 (3/10) none =
        [(⟨"doc1", "a.pdf", "hello", 1, none, none, none⟩ : SearchResult)] := by
  constructor
  · simp
  · have hcos : cosineSimilarity [1] [(1 : ℝ), 0] = 1 := by
      have hdp : dotProduct [1] [(1 : ℝ), 0] = 1 := by
        simp [dotProduct]
      have hsq : sumSq [(1 : ℝ)] = 1 := by
        simp [sumSq]
      unfold cosineSimilarity
      rw [hdp]
      have htake : ([(1 : ℝ), 0].take [(1 : ℝ)].length) = [(1 : ℝ)] := by
        simp
      rw [htake, hsq, Real.sqrt_one]
      norm_num
    simp only [searchSimilar, scoredResults, List.map_cons, List.map_nil, hcos]
    have hfil : (3 : ℝ) / 10 ≤ 1 := by norm_num
    simp [List.insertionSort, List.orderedInsert, hfil]

/-! ## Semantic chunking

`splitIntoSemanticChunks(text, maxChunkSize, overlapSentences)` from the
chunking module.  Strings are modelled as `List Char` (the inputs of
interest are in the basic plane, where JavaScript's UTF-16 `length`
coincides with the number of characters). -/

/-- JavaScript's `\s` for the characters that occur in this code path. -/
def isWsChar (c : Char) : Bool :=
  c == ' ' || c == '\n' || c == '\t' || c == '\r' || c == '\x0b' || c == '\x0c'

/-- The sentence-terminator class `[.!?]`. -/
def isPunct (c : Char) : Bool :=
  c == '.' || c == '!' || c == '?'

/-- `.replace(/\s+/g, ' ')`: each maximal whitespace run becomes one space.
(The subsequent `.replace(/\n+/g, '\n')` is the identity, as no newline
survives the first replacement.) -/
def collapseWs : List Char → List Char
  | [] => []
  | [c] => if isWsChar c then [' '] else [c]
  | c :: d :: cs =>
    if isWsChar c then
      if isWsChar d then collapseWs (d :: cs)
      else ' ' :: collapseWs (d :: cs)
    else c :: collapseWs (d :: cs)

/-- Leading-whitespace removal. -/
def trimLeft (s : List Char) : List Char :=
  s.dropWhile isWsChar

/-- Trailing-whitespace removal. -/
def trimRight (s : List Char) : List Char :=
  (s.reverse.dropWhile isWsChar).reverse

/-- `String.prototype.trim()`. -/
def trimWs (s : List Char) : List Char :=
  trimLeft (trimRight s)

/-- The normalisation prefix of `splitIntoSemanticChunks`:
`text.replace(/\s+/g, ' ').replace(/\n+/g, '\n').trim()`. -/
def normalizeText (text : List Char) : List Char :=
  trimWs (collapseWs text)

/-- One global pass of `text.match(/[^.!?]+[.!?]+(?:\s+|$)/g)`.

The regex's character classes are complementary, so greedy matching is
forced: a match at a position is a maximal nonempty run of non-terminators,
a maximal nonempty run of terminators, then either end-of-input or a
maximal nonempty whitespace run; if this fails, the engine retries from the
next position.  `fuel` bounds the scan (every step consumes at least one
character), keeping the recursion structural. -/
def sentenceMatchesAux : Nat → List Char → List (List Char)
  | 0, _ => []
  | _, [] => []
  | fuel + 1, c :: rest =>
    let s := c :: rest
    let np := s.takeWhile (fun ch => !isPunct ch)
    if np.isEmpty then sentenceMatchesAux fuel rest
    else
      let s1 := s.dropWhile (fun ch => !isPunct ch)
      let pr := s1.takeWhile isPunct
      if pr.isEmpty then sentenceMatchesAux fuel rest
      else
        let s2 := s1.dropWhile isPunct
        match s2 with
        | [] => [np ++ pr]
        | d :: _ =>
          if isWsChar d then
            (np ++ pr ++ s2.takeWhile isWsChar) ::
              sentenceMatchesAux fuel (s2.dropWhile isWsChar)
          else sentenceMatchesAux fuel rest

/-- All matches of the sentence regex over the (normalised) text. -/
def sentenceMatches (t : List Char) : List (List Char) :=
  sentenceMatchesAux t.length t

/-- The sentence list used by the chunk loop: the regex matches (or the
whole text when there is none), trimmed, with empties dropped. -/
def sentencesOf (t : List Char) : List (List Char) :=
  let ms := sentenceMatches t
  let raw := if ms.isEmpty then [t] else ms
  (raw.map trimWs).filter (fun s => decide (0 < s.length))

/-- `Array.prototype.join(' ')`. -/
def joinSp : List (List Char) → List Char
  | [] => []
  | [u] => u
  | u :: v :: us => u ++ ' ' :: joinSp (v :: us)

/-- `slice(-n)`: the last `n` elements. -/
def lastN (n : Nat) (l : List α) : List α :=
  l.drop (l.length - n)

/-- `sentence.split(/\s+/)`, with an accumulator for the current word.
`fuel` keeps the recursion structural (each step consumes one character or
a whole whitespace run). -/
def splitWsAux : Nat → List Char → List Char → List (List Char)
  | 0, cur, _ => [cur.reverse]
  | _, cur, [] => [cur.reverse]
  | fuel + 1, cur, c :: cs =>
    if isWsChar c then
      cur.reverse :: splitWsAux fuel [] (cs.dropWhile isWsChar)
    else
      splitWsAux fuel (c :: cur) cs

/-- `sentence.split(/\s+/)`. -/
def splitWs (s : List Char) : List (List Char) :=
  splitWsAux (s.length + 1) [] s

/-- The word-accumulation loop of `splitLongSentenceByWords`. -/
def splitLongGo (maxChunkSize : Nat) (cur : List Char) :
    List (List Char) → List (List Char)
  | [] => if 0 < (trimWs cur).length then [trimWs cur] else []
  | w :: ws =>
    let test := if cur.isEmpty then w else cur ++ ' ' :: w
    if maxChunkSize < test.length ∧ ¬ cur.isEmpty then
      trimWs cur :: splitLongGo maxChunkSize w ws
    else
      splitLongGo maxChunkSize test ws

/-- `splitLongSentenceByWords(sentence, maxChunkSize)`: split on whitespace
and re-accumulate words while the candidate stays within `maxChunkSize`. -/
def splitLongSentenceByWords (sentence : List Char) (maxChunkSize : Nat) :
    List (List Char) :=
  splitLongGo maxChunkSize [] (splitWs sentence)

/-- The sentence-accumulation loop of `splitIntoSemanticChunks`: arguments
are the remaining sentences, the units of the chunk under construction
(`currentChunk`), and `currentSize` (the sum of the unit lengths, spaces not
counted — exactly the source's bookkeeping). -/
def chunkLoop (maxChunkSize overlapSentences : Nat) :
    List (List Char) → List (List Char) → Nat → List (List Char)
  | [], currentChunk, _ =>
    if currentChunk.isEmpty then [] else [joinSp currentChunk]
  | s :: ss, currentChunk, currentSize =>
    if maxChunkSize < s.length then
      -- a single sentence exceeds maxChunkSize: flush, then word-split it
      (if currentChunk.isEmpty then [] else [joinSp currentChunk]) ++
        splitLongSentenceByWords s maxChunkSize ++
        chunkLoop maxChunkSize overlapSentences ss [] 0
    else if maxChunkSize < currentSize + s.length ∧ ¬ currentChunk.isEmpty then
      -- close the current chunk, seed the next one from the overlap window
      joinSp currentChunk ::
        (let newChunk :=
          if 0 < overlapSentences ∧ overlapSentences < currentChunk.length
            then lastN overlapSentences currentChunk else []
         chunkLoop maxChunkSize overlapSentences ss (newChunk ++ [s])
           ((newChunk.map List.length).sum + s.length))
    else
      chunkLoop maxChunkSize overlapSentences ss (currentChunk ++ [s])
        (currentSize + s.length)

/-- The assembled chunks of `splitIntoSemanticChunks`, before the final
`map(trim).filter(length > 20)` post-processing. -/
def assembledChunks (text : List Char) (maxChunkSize overlapSentences : Nat) :
    List (List Char) :=
  chunkLoop maxChunkSize overlapSentences (sentencesOf (normalizeText text)) [] 0

/-- `splitIntoSemanticChunks(text, maxChunkSize, overlapSentences)`. -/
def splitIntoSemanticChunks (text : List Char) (maxChunkSize overlapSentences : Nat) :
    List (List Char) :=
  let t := normalizeText text
  if t.isEmpty then []
  else
    ((assembledChunks text maxChunkSize overlapSentences).map trimWs).filter
      (fun chunk => decide (20 < chunk.length))

/-! ### Concrete segmenter behaviour (C7, and the C2/C3 counterexamples) -/

/-- C7 counterexample: segmenting
`"Cats are mammals. Dogs are mammals too."` with `maxSize = 20`,
`overlap = 0` does **not** yield the two sentence fragments — the second
sentence has 21 characters, is force-split at word boundaries, and the
final `length > 20` filter then discards every piece, so the output is
empty rather than the claimed pair. -/
theorem chunk_example_not_two_fragments :
    splitIntoSemanticChunks "Cats are mammals. Dogs are mammals too.".toList 20 0 ≠
      ["Cats are mammals.".toList, "Dogs are mammals too.".toList] := by
  decide

/-- C7 (amended): that input with `maxSize = 20`, `overlap = 0` yields no
fragments at all. -/
theorem chunk_example_empty :
    splitIntoSemanticChunks "Cats are mammals. Dogs are mammals too.".toList 20 0 = [] := by
  decide

/-- C2 counterexample: with `maxSize = 22`, `overlap = 0`, the text
`"aaaaaaaaaa. bbbbbbbbbb. cccccccccccccccccccccccccccccc."` has units of
lengths 11, 11 and 31.  The output contains a 23-character fragment joining
the two 11-character units (exceeding `maxSize` although neither unit does,
because `join(' ')` separators are not counted by the loop), and a
31-character fragment that **is** a word-splitting output yet still exceeds
`maxSize` (a single word longer than `maxSize` is emitted whole). -/
theorem chunk_length_bound_violated :
    sentencesOf (normalizeText
        "aaaaaaaaaa. bbbbbbbbbb. cccccccccccccccccccccccccccccc.".toList) =
      ["aaaaaaaaaa.".toList, "bbbbbbbbbb.".toList,
        "cccccccccccccccccccccccccccccc.".toList] ∧
    splitIntoSemanticChunks
        "aaaaaaaaaa. bbbbbbbbbb. cccccccccccccccccccccccccccccc.".toList 22 0 =
      ["aaaaaaaaaa. bbbbbbbbbb.".toList,
        "cccccccccccccccccccccccccccccc.".toList] ∧
    ("aaaaaaaaaa. bbbbbbbbbb.".toList.length = 23 ∧
      "aaaaaaaaaa.".toList.length ≤ 22 ∧ "bbbbbbbbbb.".toList.length ≤ 22) ∧
    ("cccccccccccccccccccccccccccccc.".toList ∈
        splitLongSentenceByWords "cccccccccccccccccccccccccccccc.".toList 22 ∧
      22 < "cccccccccccccccccccccccccccccc.".toList.length) := by
  refine ⟨by decide, by decide, ⟨by decide, by decide, by decide⟩, by decide, by decide⟩

/-- C3 counterexample: with `overlap = 1`, `maxSize = 30`, two 25-character
units produce two single-unit fragments.  `fragment[0]` consists of exactly
`overlap` units — not fewer — yet `fragment[1]` does not start with it:
the code seeds the overlap only when the closed fragment has *strictly
more* than `overlap` units (`currentChunk.length > overlapSentences`). -/
theorem chunk_overlap_not_seeded_at_exact_overlap :
    splitIntoSemanticChunks
        "aaaaaaaaaaaaaaaaaaaaaaaa. bbbbbbbbbbbbbbbbbbbbbbbb.".toList 30 1 =
      ["aaaaaaaaaaaaaaaaaaaaaaaa.".toList, "bbbbbbbbbbbbbbbbbbbbbbbb.".toList] ∧
    sentencesOf (normalizeText
        "aaaaaaaaaaaaaaaaaaaaaaaa. bbbbbbbbbbbbbbbbbbbbbbbb.".toList) =
      ["aaaaaaaaaaaaaaaaaaaaaaaa.".toList, "bbbbbbbbbbbbbbbbbbbbbbbb.".toList] ∧
    ¬ List.IsPrefix "aaaaaaaaaaaaaaaaaaaaaaaa.".toList
        "bbbbbbbbbbbbbbbbbbbbbbbb.".toList := by
  refine ⟨by decide, by decide, by decide⟩

/-! ### Whitespace accounting -/

/-- Number of whitespace characters in a string. -/
def wsCount (s : List Char) : Nat :=
  (s.filter isWsChar).length

theorem wsCount_append (a b : List Char) :
    wsCount (a ++ b) = wsCount a + wsCount b := by
  simp [wsCount, List.filter_append]

theorem wsCount_reverse (a : List Char) : wsCount a.reverse = wsCount a := by
  simp [wsCount, List.filter_reverse]

/-- Dropping a whitespace prefix removes the same amount from the length
and from the whitespace count. -/
theorem dropWhile_ws_accounting (l : List Char) :
    ∃ r, l.length = (l.dropWhile isWsChar).length + r ∧
      wsCount l = wsCount (l.dropWhile isWsChar) + r := by
  refine ⟨(l.takeWhile isWsChar).length, ?_, ?_⟩
  · conv_lhs => rw [← List.takeWhile_append_dropWhile (p := isWsChar) (l := l)]
    rw [List.length_append]
    omega
  · conv_lhs => rw [← List.takeWhile_append_dropWhile (p := isWsChar) (l := l)]
    rw [wsCount_append]
    have : wsCount (l.takeWhile isWsChar) = (l.takeWhile isWsChar).length := by
      unfold wsCount
      rw [List.filter_eq_self.2 (fun a ha => List.mem_takeWhile_imp ha)]
    omega

theorem trimLeft_accounting (l : List Char) :
    ∃ r, l.length = (trimLeft l).length + r ∧ wsCount l = wsCount (trimLeft l) + r :=
  dropWhile_ws_accounting l

theorem trimRight_accounting (l : List Char) :
    ∃ r, l.length = (trimRight l).length + r ∧ wsCount l = wsCount (trimRight l) + r := by
  obtain ⟨r, h1, h2⟩ := dropWhile_ws_accounting l.reverse
  refine ⟨r, ?_, ?_⟩
  · rw [trimRight, List.length_reverse]
    rw [List.length_reverse] at h1
    exact h1
  · rw [trimRight, wsCount_reverse]
    rw [wsCount_reverse] at h2
    exact h2

theorem trimWs_accounting (l : List Char) :
    ∃ r, l.length = (trimWs l).length + r ∧ wsCount l = wsCount (trimWs l) + r := by
  obtain ⟨r1, h1, h2⟩ := trimRight_accounting l
  obtain ⟨r2, h3, h4⟩ := trimLeft_accounting (trimRight l)
  exact ⟨r1 + r2, by unfold trimWs; omega, by unfold trimWs; omega⟩

theorem trimWs_length_le (l : List Char) : (trimWs l).length ≤ l.length := by
  obtain ⟨r, h1, _⟩ := trimWs_accounting l
  omega

theorem trimWs_wsCount_le (l : List Char) : wsCount (trimWs l) ≤ wsCount l := by
  obtain ⟨r, _, h2⟩ := trimWs_accounting l
  omega

/-- A chunk's bound survives trimming: trimming removes as many characters
from the length as from the whitespace count. -/
theorem trimWs_preserves_bound (B : Nat) (c : List Char)
    (h : c.length ≤ B + wsCount c ∨ wsCount c = 0) :
    (trimWs c).length ≤ B + wsCount (trimWs c) ∨ wsCount (trimWs c) = 0 := by
  obtain ⟨r, h1, h2⟩ := trimWs_accounting c
  rcases h with h | h
  · left; omega
  · right; omega

/-! ### `join(' ')` accounting -/

theorem joinSp_length (us : List (List Char)) (h : us ≠ []) :
    (joinSp us).length + 1 = ((us.map List.length).sum) + us.length := by
  induction us with
  | nil => cases h rfl
  | cons u vs ih =>
    cases vs with
    | nil => simp [joinSp]
    | cons v ws =>
      have := ih (by simp)
      simp only [joinSp, List.length_append, List.length_cons, List.map_cons,
        List.sum_cons] at this ⊢
      omega

theorem joinSp_wsCount (us : List (List Char)) (h : us ≠ []) :
    wsCount (joinSp us) + 1 = ((us.map wsCount).sum) + us.length := by
  induction us with
  | nil => cases h rfl
  | cons u vs ih =>
    cases vs with
    | nil => simp [joinSp]
    | cons v ws =>
      have := ih (by simp)
      have hsp : wsCount (u ++ ' ' :: joinSp (v :: ws)) =
          wsCount u + 1 + wsCount (joinSp (v :: ws)) := by
        rw [wsCount_append]
        have : wsCount (' ' :: joinSp (v :: ws)) = 1 + wsCount (joinSp (v :: ws)) := by
          unfold wsCount
          rw [List.filter_cons]
          simp [isWsChar]
          omega
        omega
      simp only [joinSp] at hsp ⊢
      simp only [List.map_cons, List.sum_cons, List.length_cons] at this ⊢
      omega

/-- The key `join(' ')` identity: joined length plus one equals the sum of
unit lengths plus one per unit. -/
theorem map_len_plus_sum (us : List (List Char)) :
    (us.map (fun u => u.length + 1)).sum = (us.map List.length).sum + us.length := by
  induction us with
  | nil => simp
  | cons u vs ih =>
    simp only [List.map_cons, List.sum_cons, List.length_cons]
    omega

theorem joinSp_length_plus (us : List (List Char)) (h : us ≠ []) :
    (joinSp us).length + 1 = (us.map (fun u => u.length + 1)).sum := by
  have h1 := joinSp_length us h
  have h2 := map_len_plus_sum us
  omega

/-! ### Word-splitting lemmas -/

/-- Words produced by `split(/\s+/)` contain no whitespace. -/
theorem splitWsAux_wsCount (fuel : Nat) :
    ∀ (cur s : List Char), (∀ c ∈ cur, isWsChar c = false) →
      ∀ w ∈ splitWsAux fuel cur s, wsCount w = 0 := by
  induction fuel with
  | zero =>
    intro cur s hcur w hw
    simp only [splitWsAux, List.mem_singleton] at hw
    subst hw
    simp only [wsCount, List.filter_reverse, List.length_reverse]
    rw [List.filter_eq_nil_iff.2 (fun c hc => by simp [hcur c hc])]
    rfl
  | succ fuel ih =>
    intro cur s hcur w hw
    cases s with
    | nil =>
      simp only [splitWsAux, List.mem_singleton] at hw
      subst hw
      simp only [wsCount, List.filter_reverse, List.length_reverse]
      rw [List.filter_eq_nil_iff.2 (fun c hc => by simp [hcur c hc])]
      rfl
    | cons c cs =>
      by_cases hc : isWsChar c
      · simp only [splitWsAux, if_pos hc, List.mem_cons] at hw
        rcases hw with hw | hw
        · subst hw
          simp only [wsCount, List.filter_reverse, List.length_reverse]
          rw [List.filter_eq_nil_iff.2 (fun x hx => by simp [hcur x hx])]
          rfl
        · exact ih [] _ (by simp) w hw
      · simp only [splitWsAux, if_neg hc] at hw
        refine ih (c :: cur) cs ?_ w hw
        intro x hx
        rcases List.mem_cons.1 hx with hx | hx
        · subst hx
          simpa using hc
        · exact hcur x hx

theorem splitWs_wsCount (s : List Char) : ∀ w ∈ splitWs s, wsCount w = 0 :=
  splitWsAux_wsCount _ [] s (by simp)

/-- The per-word length budget of `split(/\s+/)`: the words plus one
separator each cost at most the input length plus one. -/
theorem splitWsAux_sum_bound (fuel : Nat) :
    ∀ (cur s : List Char),
      ((splitWsAux fuel cur s).map (fun w => w.length + 1)).sum ≤
        cur.length + s.length + 1 := by
  induction fuel with
  | zero =>
    intro cur s
    simp [splitWsAux]
  | succ fuel ih =>
    intro cur s
    cases s with
    | nil => simp [splitWsAux]
    | cons c cs =>
      by_cases hc : isWsChar c
      · rw [splitWsAux, if_pos hc]
        simp only [List.map_cons, List.sum_cons, List.length_reverse]
        have h1 := ih [] (cs.dropWhile isWsChar)
        have h2 : (cs.dropWhile isWsChar).length ≤ cs.length :=
          (List.dropWhile_sublist _).length_le
        simp only [List.length_nil, List.length_cons] at h1 ⊢
        omega
      · rw [splitWsAux, if_neg hc]
        have := ih (c :: cur) cs
        simp only [List.length_cons] at this ⊢
        omega

theorem splitWs_sum_bound (s : List Char) :
    ((splitWs s).map (fun w => w.length + 1)).sum ≤ s.length + 1 := by
  have := splitWsAux_sum_bound (s.length + 1) [] s
  simpa using this

theorem splitWsAux_ne_nil (fuel : Nat) (cur s : List Char) :
    splitWsAux fuel cur s ≠ [] := by
  cases fuel with
  | zero => simp [splitWsAux]
  | succ fuel =>
    cases s with
    | nil => simp [splitWsAux]
    | cons c cs =>
      by_cases hc : isWsChar c
      · rw [splitWsAux, if_pos hc]
        simp
      · rw [splitWsAux, if_neg hc]
        exact splitWsAux_ne_nil fuel _ cs

/-- Every emitted sub-chunk of the word loop is bounded by the running
accumulator plus the remaining word budget. -/
theorem splitLongGo_le_budget (M : Nat) :
    ∀ (ws : List (List Char)) (cur : List Char),
      ∀ c ∈ splitLongGo M cur ws,
        c.length ≤ cur.length + (ws.map (fun w => w.length + 1)).sum := by
  intro ws
  induction ws with
  | nil =>
    intro cur c hc
    by_cases h : 0 < (trimWs cur).length
    · simp only [splitLongGo, if_pos h, List.mem_singleton] at hc
      subst hc
      simpa using trimWs_length_le cur
    · simp [splitLongGo, if_neg h] at hc
  | cons w ws ih =>
    intro cur c hc
    rw [splitLongGo] at hc
    by_cases hcond : M < (if cur.isEmpty then w else cur ++ ' ' :: w).length ∧ ¬ cur.isEmpty
    · rw [if_pos hcond] at hc
      rcases List.mem_cons.1 hc with hc | hc
      · subst hc
        have := trimWs_length_le cur
        simp only [List.map_cons, List.sum_cons]
        omega
      · have := ih w c hc
        simp only [List.map_cons, List.sum_cons]
        omega
    · rw [if_neg hcond] at hc
      have := ih (if cur.isEmpty then w else cur ++ ' ' :: w) c hc
      by_cases hemp : cur.isEmpty
      · rw [if_pos hemp] at this
        simp only [List.map_cons, List.sum_cons]
        omega
      · rw [if_neg hemp] at this
        simp only [List.length_append, List.length_cons, List.map_cons,
          List.sum_cons] at this ⊢
        omega

/-- Every word-splitting output fits within the sentence it split. -/
theorem splitLongSentenceByWords_length_le (s : List Char) (M : Nat) :
    ∀ c ∈ splitLongSentenceByWords s M, c.length ≤ s.length := by
  intro c hc
  unfold splitLongSentenceByWords at hc
  rcases hws : splitWs s with _ | ⟨w, ws⟩
  · exact absurd hws (splitWsAux_ne_nil _ _ _)
  · rw [hws] at hc
    rw [splitLongGo] at hc
    have hemp : (List.nil : List Char).isEmpty := by simp
    rw [if_pos hemp] at hc
    have hcond : ¬ (M < w.length ∧ ¬ (List.nil : List Char).isEmpty) := by
      simp
    rw [if_neg hcond] at hc
    have hbound := splitLongGo_le_budget M ws w c hc
    have hsum := splitWs_sum_bound s
    rw [hws] at hsum
    simp only [List.map_cons, List.sum_cons] at hsum
    omega

/-- C2 invariant for word-splitting: every output is within `maxChunkSize`
or contains no whitespace at all (a single long word). -/
theorem splitLongGo_small_or_word (M : Nat) :
    ∀ (ws : List (List Char)) (cur : List Char),
      (cur.length ≤ M ∨ wsCount cur = 0) →
      (∀ w ∈ ws, wsCount w = 0) →
      ∀ c ∈ splitLongGo M cur ws, c.length ≤ M ∨ wsCount c = 0 := by
  intro ws
  induction ws with
  | nil =>
    intro cur hcur _ c hc
    by_cases h : 0 < (trimWs cur).length
    · simp only [splitLongGo, if_pos h, List.mem_singleton] at hc
      subst hc
      rcases hcur with hcur | hcur
      · exact Or.inl (le_trans (trimWs_length_le cur) hcur)
      · exact Or.inr (by have := trimWs_wsCount_le cur; omega)
    · simp [splitLongGo, if_neg h] at hc
  | cons w ws ih =>
    intro cur hcur hws c hc
    rw [splitLongGo] at hc
    by_cases hcond : M < (if cur.isEmpty then w else cur ++ ' ' :: w).length ∧ ¬ cur.isEmpty
    · rw [if_pos hcond] at hc
      rcases List.mem_cons.1 hc with hc | hc
      · subst hc
        rcases hcur with hcur | hcur
        · exact Or.inl (le_trans (trimWs_length_le cur) hcur)
        · exact Or.inr (by have := trimWs_wsCount_le cur; omega)
      · exact ih w (Or.inr (hws w (by simp))) (fun x hx => hws x (by simp [hx])) c hc
    · rw [if_neg hcond] at hc
      refine ih (if cur.isEmpty then w else cur ++ ' ' :: w) ?_
        (fun x hx => hws x (by simp [hx])) c hc
      by_cases hemp : cur.isEmpty
      · rw [if_pos hemp]
        exact Or.inr (hws w (by simp))
      · rw [if_neg hemp] at hcond ⊢
        left
        rcases Decidable.not_and_iff_or_not.1 hcond with h | h
        · omega
        · exact absurd hemp (by simpa using h)

theorem splitLongSentenceByWords_small_or_word (s : List Char) (M : Nat) :
    ∀ c ∈ splitLongSentenceByWords s M, c.length ≤ M ∨ wsCount c = 0 := by
  intro c hc
  exact splitLongGo_small_or_word M (splitWs s) [] (Or.inl (by simp))
    (splitWs_wsCount s) c hc

/-! ### Chunk-loop invariants -/

theorem joinSp_small_bound (B : Nat) (cur : List (List Char)) (hne : cur ≠ [])
    (hsum : (cur.map List.length).sum ≤ B) :
    (joinSp cur).length ≤ B + wsCount (joinSp cur) := by
  have h1 := joinSp_length cur hne
  have h2 := joinSp_wsCount cur hne
  have h3 : 0 ≤ (cur.map wsCount).sum := Nat.zero_le _
  omega

/-- C2 invariant: assuming the loop bookkeeping (`currentSize` equals the
sum of unit lengths, all units fit in `maxChunkSize`, and the accumulated
sum is within `(overlap + 1) * maxChunkSize`), every produced chunk is
within `(overlap + 1) * maxChunkSize` up to its whitespace, or whitespace
free. -/
theorem chunkLoop_small (M O : Nat) :
    ∀ (ss cur : List (List Char)) (σ : Nat),
      (∀ u ∈ cur, u.length ≤ M) →
      ((cur.map List.length).sum ≤ (O + 1) * M) →
      σ = (cur.map List.length).sum →
      ∀ c ∈ chunkLoop M O ss cur σ,
        c.length ≤ (O + 1) * M + wsCount c ∨ wsCount c = 0 := by
  intro ss
  induction ss with
  | nil =>
    intro cur σ _ hsum _ c hc
    rw [chunkLoop] at hc
    by_cases hemp : cur.isEmpty
    · simp [hemp] at hc
    · rw [if_neg hemp] at hc
      rcases List.mem_singleton.1 hc with rfl
      exact Or.inl (joinSp_small_bound _ cur (by simpa using hemp) hsum)
  | cons s ss ih =>
    intro cur σ hunits hsum hσ c hc
    rw [chunkLoop] at hc
    by_cases hbig : M < s.length
    · rw [if_pos hbig] at hc
      rcases List.mem_append.1 hc with hc | hc
      · rcases List.mem_append.1 hc with hc | hc
        · by_cases hemp : cur.isEmpty
          · simp [hemp] at hc
          · rw [if_neg hemp] at hc
            rcases List.mem_singleton.1 hc with rfl
            exact Or.inl (joinSp_small_bound _ cur (by simpa using hemp) hsum)
        · rcases splitLongSentenceByWords_small_or_word s M c hc with h | h
          · left
            have : M ≤ (O + 1) * M := by
              have : (O + 1) * M = O * M + M := by ring
              omega
            omega
          · exact Or.inr h
      · exact ih [] 0 (by simp) (by simp) (by simp) c hc
    · rw [if_neg hbig] at hc
      by_cases hclose : M < σ + s.length ∧ ¬ cur.isEmpty
      · rw [if_pos hclose] at hc
        rcases List.mem_cons.1 hc with rfl | hc
        · exact Or.inl (joinSp_small_bound _ cur (by simpa using hclose.2) hsum)
        · set newChunk : List (List Char) :=
            if 0 < O ∧ O < cur.length then lastN O cur else [] with hnc
          refine ih (newChunk ++ [s]) _ ?_ ?_ ?_ c hc
          · intro u hu
            rcases List.mem_append.1 hu with hu | hu
            · have hmem : u ∈ cur := by
                rw [hnc] at hu
                by_cases hcond : 0 < O ∧ O < cur.length
                · rw [if_pos hcond] at hu
                  exact List.mem_of_mem_drop hu
                · rw [if_neg hcond] at hu
                  cases hu
              exact hunits u hmem
            · rcases List.mem_singleton.1 hu with rfl
              omega
          · rw [List.map_append, List.sum_append]
            have hs_le : s.length ≤ M := by omega
            have hnc_le : (newChunk.map List.length).sum ≤ O * M := by
              rw [hnc]
              by_cases hcond : 0 < O ∧ O < cur.length
              · rw [if_pos hcond]
                have hlen : (lastN O cur).length = O := by
                  unfold lastN
                  rw [List.length_drop]
                  omega
                have hmemle : ∀ x ∈ (lastN O cur).map List.length, x ≤ M := by
                  intro x hx
                  obtain ⟨u, hu, rfl⟩ := List.mem_map.1 hx
                  exact hunits u (List.mem_of_mem_drop hu)
                calc ((lastN O cur).map List.length).sum ≤
                      ((lastN O cur).map List.length).length • M :=
                      List.sum_le_card_nsmul _ M hmemle
                  _ = O * M := by
                      rw [List.length_map, hlen]
                      simp [Nat.smul_one_eq_cast]
              · rw [if_neg hcond]
                simp
            have : (O + 1) * M = O * M + M := by ring
            simp only [List.map_cons, List.map_nil, List.sum_cons, List.sum_nil]
            omega
          · rw [List.map_append, List.sum_append]
            simp
      · rw [if_neg hclose] at hc
        refine ih (cur ++ [s]) _ ?_ ?_ ?_ c hc
        · intro u hu
          rcases List.mem_append.1 hu with hu | hu
          · exact hunits u hu
          · rcases List.mem_singleton.1 hu with rfl
            omega
        · rw [List.map_append, List.sum_append]
          rcases Decidable.not_and_iff_or_not.1 hclose with h | h
          · have hle : σ + s.length ≤ M := by omega
            have : M ≤ (O + 1) * M := by
              have : (O + 1) * M = O * M + M := by ring
              omega
            simp only [List.map_cons, List.map_nil, List.sum_cons, List.sum_nil]
            omega
          · have hcur : cur = [] := by
              rcases cur with _ | ⟨u, us⟩
              · rfl
              · simp at h
            subst hcur
            simp only [List.map_nil, List.sum_nil, List.map_cons, List.sum_cons] at hσ ⊢
            have : M ≤ (O + 1) * M := by
              have : (O + 1) * M = O * M + M := by ring
              omega
            omega
        · rw [List.map_append, List.sum_append]
          simp [hσ]

/-- C2 (amended): every returned fragment's length exceeds
`(overlap + 1) * maxSize` by at most the number of whitespace characters in
the fragment (so with `overlap = 0` the non-whitespace content fits in
`maxSize`; the excess over `maxSize` is only the `join(' ')` separators and
overlap seeding), except fragments that contain no whitespace at all — the
single words longer than `maxSize` emitted whole by word-splitting. -/
theorem chunk_length_soft_bound (text : List Char) (M O : Nat) (c : List Char)
    (hc : c ∈ splitIntoSemanticChunks text M O) :
    c.length ≤ (O + 1) * M + wsCount c ∨ wsCount c = 0 := by
  unfold splitIntoSemanticChunks at hc
  by_cases hemp : (normalizeText text).isEmpty
  · simp [hemp] at hc
  · rw [if_neg hemp] at hc
    have hc1 := List.mem_filter.1 hc
    obtain ⟨c0, hc0, rfl⟩ := List.mem_map.1 hc1.1
    have hP := chunkLoop_small M O (sentencesOf (normalizeText text)) [] 0
      (by simp) (by simp) (by simp) c0 hc0
    exact trimWs_preserves_bound _ _ hP

/-- Witness for `chunk_length_soft_bound` at a fragment of the two-unit
23-character chunk example (`maxSize = 23`, `overlap = 1`). -/
theorem chunk_length_soft_bound_witness :
    ("aaaaaaaaaa. bbbbbbbbbb.".toList ∈
        splitIntoSemanticChunks
          "aaaaaaaaaa. bbbbbbbbbb. cccccccccc.".toList 23 1) ∧
      ("aaaaaaaaaa. bbbbbbbbbb.".toList.length ≤
          (1 + 1) * 23 + wsCount "aaaaaaaaaa. bbbbbbbbbb.".toList ∨
        wsCount "aaaaaaaaaa. bbbbbbbbbb.".toList = 0) :=
  ⟨by decide, chunk_length_soft_bound
    "aaaaaaaaaa. bbbbbbbbbb. cccccccccc.".toList 23 1 _ (by decide)⟩

/-! ### Total-length accounting (for the minimal-length floor) -/

theorem sum_map_le_of_sublist (cur pre : List (List Char))
    (h : cur.Sublist pre) (f : List Char → Nat) :
    (cur.map f).sum ≤ (pre.map f).sum :=
  (h.map f).sum_le_sum (fun _ _ => Nat.zero_le _)

/-- Every chunk the loop produces costs at most the total unit budget
(one character per unit beyond its own length pays for the separators). -/
theorem chunkLoop_le_total (M O : Nat) :
    ∀ (ss pre cur : List (List Char)) (σ : Nat),
      cur.Sublist pre →
      ∀ c ∈ chunkLoop M O ss cur σ,
        c.length + 1 ≤ ((pre ++ ss).map (fun u => u.length + 1)).sum := by
  intro ss
  induction ss with
  | nil =>
    intro pre cur σ hsub c hc
    rw [chunkLoop] at hc
    by_cases hemp : cur.isEmpty
    · simp [hemp] at hc
    · rw [if_neg hemp] at hc
      rcases List.mem_singleton.1 hc with rfl
      rw [joinSp_length_plus cur (by simpa using hemp), List.append_nil]
      exact sum_map_le_of_sublist cur pre hsub _
  | cons s ss ih =>
    intro pre cur σ hsub c hc
    have hsum_pre : ((pre ++ s :: ss).map (fun u => u.length + 1)).sum =
        ((pre.map (fun u => u.length + 1)).sum) + (s.length + 1) +
          ((ss.map (fun u => u.length + 1)).sum) := by
      rw [List.map_append, List.sum_append, List.map_cons, List.sum_cons]
      omega
    have hassoc : ((pre ++ [s]) ++ ss) = pre ++ s :: ss := by
      rw [List.append_assoc, List.singleton_append]
    rw [chunkLoop] at hc
    by_cases hbig : M < s.length
    · rw [if_pos hbig] at hc
      rcases List.mem_append.1 hc with hc | hc
      · rcases List.mem_append.1 hc with hc | hc
        · by_cases hemp : cur.isEmpty
          · simp [hemp] at hc
          · rw [if_neg hemp] at hc
            rcases List.mem_singleton.1 hc with rfl
            rw [joinSp_length_plus cur (by simpa using hemp)]
            have := sum_map_le_of_sublist cur pre hsub (fun u => u.length + 1)
            omega
        · have hle := splitLongSentenceByWords_length_le s M c hc
          omega
      · have := ih (pre ++ [s]) [] 0 (List.nil_sublist _) c hc
        rw [hassoc] at this
        exact this
    · rw [if_neg hbig] at hc
      by_cases hclose : M < σ + s.length ∧ ¬ cur.isEmpty
      · rw [if_pos hclose] at hc
        rcases List.mem_cons.1 hc with rfl | hc
        · rw [joinSp_length_plus cur (by simpa using hclose.2)]
          have := sum_map_le_of_sublist cur pre hsub (fun u => u.length + 1)
          omega
        · set newChunk : List (List Char) :=
            if 0 < O ∧ O < cur.length then lastN O cur else [] with hnc
          have hncsub : newChunk.Sublist cur := by
            rw [hnc]
            by_cases hcond : 0 < O ∧ O < cur.length
            · rw [if_pos hcond]
              exact List.drop_sublist _ _
            · rw [if_neg hcond]
              exact List.nil_sublist _
          have := ih (pre ++ [s]) (newChunk ++ [s]) _
            ((hncsub.trans hsub).append (List.Sublist.refl [s])) c hc
          rw [hassoc] at this
          exact this
      · rw [if_neg hclose] at hc
        have := ih (pre ++ [s]) (cur ++ [s]) _
          (hsub.append (List.Sublist.refl [s])) c hc
        rw [hassoc] at this
        exact this

theorem trimLeft_length_le (l : List Char) : (trimLeft l).length ≤ l.length :=
  (List.dropWhile_sublist _).length_le

theorem dropWhile_append_all (p : Char → Bool) (a b : List Char)
    (h : ∀ x ∈ a, p x = true) : (a ++ b).dropWhile p = b.dropWhile p := by
  induction a with
  | nil => rfl
  | cons x xs ih =>
    rw [List.cons_append, List.dropWhile_cons, if_pos (h x (by simp))]
    exact ih (fun y hy => h y (by simp [hy]))

theorem trimRight_append_ws (x w : List Char) (h : ∀ c ∈ w, isWsChar c = true) :
    trimRight (x ++ w) = trimRight x := by
  unfold trimRight
  rw [List.reverse_append,
    dropWhile_append_all _ _ _ (fun c hc => h c (List.mem_reverse.1 hc))]

/-- A match that ends in a whitespace run trims back inside its sentence
part. -/
theorem trimWs_length_le_of_ws_suffix (x w : List Char)
    (h : ∀ c ∈ w, isWsChar c = true) :
    (trimWs (x ++ w)).length ≤ x.length := by
  unfold trimWs
  calc (trimLeft (trimRight (x ++ w))).length ≤ (trimRight (x ++ w)).length :=
      trimLeft_length_le _
    _ = (trimRight x).length := by rw [trimRight_append_ws x w h]
    _ ≤ x.length := by
        obtain ⟨r, h1, _⟩ := trimRight_accounting x
        omega

/-- The regex matches, once trimmed, fit the scanned text with one spare
character per match (each non-final match ends in at least one whitespace
character that trimming removes; the final match may use the spare). -/
theorem sentenceMatchesAux_sum (fuel : Nat) :
    ∀ s : List Char,
      ((sentenceMatchesAux fuel s).map (fun m => (trimWs m).length + 1)).sum ≤
        s.length + 1 := by
  induction fuel with
  | zero =>
    intro s
    simp [sentenceMatchesAux]
  | succ fuel ih =>
    intro s
    cases s with
    | nil => simp [sentenceMatchesAux]
    | cons c rest =>
      have hadv : ((sentenceMatchesAux fuel rest).map
          (fun m => (trimWs m).length + 1)).sum ≤ (c :: rest).length + 1 := by
        have := ih rest
        have hr : rest.length ≤ (c :: rest).length := by simp
        omega
      have hsplit1 : (c :: rest).takeWhile (fun ch => !isPunct ch) ++
          (c :: rest).dropWhile (fun ch => !isPunct ch) = c :: rest :=
        List.takeWhile_append_dropWhile (p := fun ch => !isPunct ch) (l := c :: rest)
      simp only [sentenceMatchesAux]
      split
      · exact hadv
      · split
        · exact hadv
        · split
          · -- end of text: the match is the whole remaining input
            rename_i hd
            have hwhole : (c :: rest).takeWhile (fun ch => !isPunct ch) ++
                ((c :: rest).dropWhile (fun ch => !isPunct ch)).takeWhile isPunct =
                c :: rest := by
              have hsplit2 : ((c :: rest).dropWhile
                    (fun ch => !isPunct ch)).takeWhile isPunct ++
                  ((c :: rest).dropWhile (fun ch => !isPunct ch)).dropWhile isPunct =
                  (c :: rest).dropWhile (fun ch => !isPunct ch) :=
                List.takeWhile_append_dropWhile (p := isPunct)
                  (l := (c :: rest).dropWhile (fun ch => !isPunct ch))
              rw [hd, List.append_nil] at hsplit2
              conv_rhs => rw [← hsplit1]
              congr 1
            simp only [List.map_cons, List.map_nil, List.sum_cons, List.sum_nil]
            have htr := trimWs_length_le ((c :: rest).takeWhile (fun ch => !isPunct ch) ++
              ((c :: rest).dropWhile (fun ch => !isPunct ch)).takeWhile isPunct)
            have hln : ((c :: rest).takeWhile (fun ch => !isPunct ch) ++
                ((c :: rest).dropWhile (fun ch => !isPunct ch)).takeWhile isPunct).length =
                (c :: rest).length := by rw [hwhole]
            omega
          · split
            · -- a whitespace run follows the punctuation
              rename_i d tail hd h3
              set np := (c :: rest).takeWhile (fun ch => !isPunct ch) with hnp
              set s1 := (c :: rest).dropWhile (fun ch => !isPunct ch) with hs1
              set pr := s1.takeWhile isPunct with hpr
              rw [hd]
              have hws : ∀ x ∈ (d :: tail).takeWhile isWsChar, isWsChar x = true :=
                fun x hx => List.mem_takeWhile_imp hx
              have hsplit3 : (d :: tail).takeWhile isWsChar ++
                  (d :: tail).dropWhile isWsChar = d :: tail :=
                List.takeWhile_append_dropWhile (p := isWsChar) (l := d :: tail)
              have hws1 : 1 ≤ ((d :: tail).takeWhile isWsChar).length := by
                rw [List.takeWhile_cons_of_pos h3]
                simp
              have htrim : (trimWs (np ++ pr ++ (d :: tail).takeWhile isWsChar)).length ≤
                  (np ++ pr).length :=
                trimWs_length_le_of_ws_suffix (np ++ pr) _ hws
              have ihrec := ih ((d :: tail).dropWhile isWsChar)
              have hlens : (c :: rest).length =
                  np.length + pr.length + (d :: tail).length := by
                have hsplit2 : pr ++ s1.dropWhile isPunct = s1 :=
                  List.takeWhile_append_dropWhile (p := isPunct) (l := s1)
                have e1 : np.length + s1.length = (c :: rest).length := by
                  rw [← List.length_append, hsplit1]
                have e2 : pr.length + (d :: tail).length = s1.length := by
                  rw [← hsplit2, hd, List.length_append]
                omega
              have hlens3 : ((d :: tail).takeWhile isWsChar).length +
                  ((d :: tail).dropWhile isWsChar).length = (d :: tail).length := by
                rw [← List.length_append, hsplit3]
              have hb : (np ++ pr).length = np.length + pr.length :=
                List.length_append _ _
              simp only [List.map_cons, List.sum_cons, List.length_append]
              omega
            · exact hadv

/-- The trimmed, non-empty sentence units cost at most the normalised text
length plus one (length plus one separator each). -/
theorem sentencesOf_sum (t : List Char) :
    ((sentencesOf t).map (fun u => u.length + 1)).sum ≤ t.length + 1 := by
  have hfil : ∀ (l : List (List Char)),
      (((l.map trimWs).filter (fun s => decide (0 < s.length))).map
          (fun u => u.length + 1)).sum ≤
        (l.map (fun m => (trimWs m).length + 1)).sum := by
    intro l
    have hsub : ((l.map trimWs).filter (fun s => decide (0 < s.length))).Sublist
        (l.map trimWs) := List.filter_sublist _
    calc (((l.map trimWs).filter (fun s => decide (0 < s.length))).map
          (fun u => u.length + 1)).sum ≤
        ((l.map trimWs).map (fun u => u.length + 1)).sum :=
          (hsub.map _).sum_le_sum (fun _ _ => Nat.zero_le _)
      _ = (l.map (fun m => (trimWs m).length + 1)).sum := by
          rw [List.map_map]
          rfl
  unfold sentencesOf sentenceMatches
  dsimp only
  split
  · calc ((([t].map trimWs).filter (fun s => decide (0 < s.length))).map
          (fun u => u.length + 1)).sum ≤
        ([t].map (fun m => (trimWs m).length + 1)).sum := hfil [t]
      _ = (trimWs t).length + 1 := by simp
      _ ≤ t.length + 1 := by have := trimWs_length_le t; omega
  · calc (((((sentenceMatchesAux t.length t)).map trimWs).filter
            (fun s => decide (0 < s.length))).map (fun u => u.length + 1)).sum ≤
        ((sentenceMatchesAux t.length t).map
          (fun m => (trimWs m).length + 1)).sum := hfil _
      _ ≤ t.length + 1 := sentenceMatchesAux_sum _ t

theorem collapseWs_length_le (l : List Char) : (collapseWs l).length ≤ l.length := by
  induction l with
  | nil => simp [collapseWs]
  | cons c t ih =>
    cases t with
    | nil =>
      by_cases hc : isWsChar c <;> simp [collapseWs, hc]
    | cons d cs =>
      by_cases hc : isWsChar c
      · by_cases hd : isWsChar d
        · rw [collapseWs, if_pos hc, if_pos hd]
          simp only [List.length_cons] at ih ⊢
          omega
        · rw [collapseWs, if_pos hc, if_neg hd]
          simp only [List.length_cons] at ih ⊢
          omega
      · rw [collapseWs, if_neg hc]
        simp only [List.length_cons] at ih ⊢
        omega

theorem normalizeText_length_le (text : List Char) :
    (normalizeText text).length ≤ text.length := by
  unfold normalizeText
  calc (trimWs (collapseWs text)).length ≤ (collapseWs text).length :=
      trimWs_length_le _
    _ ≤ text.length := collapseWs_length_le text

/-- Every assembled chunk fits inside the normalised text. -/
theorem assembledChunks_length_le (text : List Char) (M O : Nat) :
    ∀ c ∈ assembledChunks text M O, c.length ≤ (normalizeText text).length := by
  intro c hc
  have h1 := chunkLoop_le_total M O (sentencesOf (normalizeText text)) [] [] 0
    (List.Sublist.refl []) c hc
  rw [List.nil_append] at h1
  have h2 := sentencesOf_sum (normalizeText text)
  omega

/-- If every assembled fragment trims to at most 20 characters, the final
filter discards everything. -/
theorem splitInto_nil_of_trim_le (text : List Char) (M O : Nat)
    (h : ∀ c ∈ assembledChunks text M O, (trimWs c).length ≤ 20) :
    splitIntoSemanticChunks text M O = [] := by
  unfold splitIntoSemanticChunks
  by_cases hemp : (normalizeText text).isEmpty
  · rw [if_pos hemp]
  · rw [if_neg hemp]
    apply List.filter_eq_nil_iff.2
    intro a ha
    obtain ⟨c0, hc0, rfl⟩ := List.mem_map.1 ha
    have := h c0 hc0
    simp
    omega

/-- C10: the minimal-length floor is the fixed constant 20 — every returned
fragment is strictly longer than 20 characters; if all assembled fragments
trim to at most 20 characters the output is empty; and in particular any
input of at most 20 characters (including any non-empty one) produces an
empty output. -/
theorem chunk_min_length_floor :
    (∀ (text : List Char) (M O : Nat) (c : List Char),
        c ∈ splitIntoSemanticChunks text M O → 20 < c.length) ∧
    (∀ (text : List Char) (M O : Nat),
        (∀ c ∈ assembledChunks text M O, (trimWs c).length ≤ 20) →
        splitIntoSemanticChunks text M O = []) ∧
    (∀ (text : List Char) (M O : Nat), text ≠ [] → text.length ≤ 20 →
        splitIntoSemanticChunks text M O = []) := by
  refine ⟨?_, ?_, ?_⟩
  · intro text M O c hc
    unfold splitIntoSemanticChunks at hc
    by_cases hemp : (normalizeText text).isEmpty
    · simp [hemp] at hc
    · rw [if_neg hemp] at hc
      have := (List.mem_filter.1 hc).2
      simpa using this
  · exact splitInto_nil_of_trim_le
  · intro text M O _ hlen
    apply splitInto_nil_of_trim_le
    intro c hc
    have h1 := assembledChunks_length_le text M O c hc
    have h2 := normalizeText_length_le text
    have h3 := trimWs_length_le c
    omega

/-- Witness for `chunk_min_length_floor`: a 9-character input yields no
fragments. -/
theorem chunk_min_length_floor_witness :
    ("Hi there.".toList ≠ [] ∧ "Hi there.".toList.length ≤ 20) ∧
      splitIntoSemanticChunks "Hi there.".toList 500 1 = [] :=
  ⟨⟨by decide, by decide⟩,
    chunk_min_length_floor.2.2 "Hi there.".toList 500 1 (by decide) (by decide)⟩

/-! ### Overlap seeding -/

theorem lastN_zero (l : List α) : lastN 0 l = [] := by
  unfold lastN
  rw [Nat.sub_zero, List.drop_length]

/-- Structure of the loop output: every chunk is the `join(' ')` of a
nonempty list of units, and whenever a closed chunk has strictly more than
`overlapSentences` units, the next chunk starts with its trailing
`overlapSentences` units. -/
theorem chunkLoop_decomp (M O : Nat) (allUnits : List (List Char)) :
    ∀ (ss cur : List (List Char)) (σ : Nat),
      (∀ s ∈ ss, s.length ≤ M) →
      (∀ s ∈ ss, s ∈ allUnits) →
      (∀ u ∈ cur, u ∈ allUnits) →
      ∃ uss : List (List (List Char)),
        chunkLoop M O ss cur σ = uss.map joinSp ∧
        uss.Chain' (fun us vs => O < us.length → List.IsPrefix (lastN O us) vs) ∧
        (∀ us ∈ uss, us ≠ [] ∧ ∀ u ∈ us, u ∈ allUnits) ∧
        (∀ us, uss.head? = some us → ∃ ext, us = cur ++ ext) := by
  intro ss
  induction ss with
  | nil =>
    intro cur σ _ _ hcur
    by_cases hemp : cur.isEmpty
    · refine ⟨[], ?_, ?_, ?_, ?_⟩
      · rw [chunkLoop, if_pos hemp]
        rfl
      · exact List.chain'_nil
      · intro us hus
        cases hus
      · intro us hus
        cases hus
    · refine ⟨[cur], ?_, ?_, ?_, ?_⟩
      · rw [chunkLoop, if_neg hemp]
        rfl
      · exact List.chain'_singleton cur
      · intro us hus
        rcases List.mem_singleton.1 hus with rfl
        exact ⟨by simpa using hemp, hcur⟩
      · intro us hus
        simp only [List.head?_cons, Option.some.injEq] at hus
        exact ⟨[], by rw [← hus, List.append_nil]⟩
  | cons s ss ih =>
    intro cur σ hsmall hmem hcur
    have hs_le : s.length ≤ M := hsmall s (by simp)
    have hbig : ¬ M < s.length := by omega
    rw [chunkLoop, if_neg hbig]
    by_cases hclose : M < σ + s.length ∧ ¬ cur.isEmpty
    · rw [if_pos hclose]
      set newChunk : List (List Char) :=
        if 0 < O ∧ O < cur.length then lastN O cur else [] with hnc
      have hncmem : ∀ u ∈ newChunk, u ∈ allUnits := by
        intro u hu
        rw [hnc] at hu
        by_cases hcond : 0 < O ∧ O < cur.length
        · rw [if_pos hcond] at hu
          exact hcur u (List.mem_of_mem_drop hu)
        · rw [if_neg hcond] at hu
          cases hu
      obtain ⟨uss, heq, hchain, hmems, hhead⟩ := ih (newChunk ++ [s]) _
        (fun x hx => hsmall x (by simp [hx]))
        (fun x hx => hmem x (by simp [hx]))
        (by
          intro u hu
          rcases List.mem_append.1 hu with hu | hu
          · exact hncmem u hu
          · rcases List.mem_singleton.1 hu with rfl
            exact hmem u (by simp))
      refine ⟨cur :: uss, ?_, ?_, ?_, ?_⟩
      · rw [heq]
        rfl
      · refine List.chain'_cons'.2 ⟨?_, hchain⟩
        intro vs hvs hO
        obtain ⟨ext, hext⟩ := hhead vs hvs
        rw [hext, hnc]
        by_cases hcond : 0 < O ∧ O < cur.length
        · rw [if_pos hcond, List.append_assoc]
          exact List.prefix_append _ _
        · rcases Decidable.not_and_iff_or_not.1 hcond with h | h
          · have : O = 0 := by omega
            subst this
            rw [lastN_zero]
            exact List.nil_prefix
          · omega
      · intro us hus
        rcases List.mem_cons.1 hus with rfl | hus
        · exact ⟨by simpa using hclose.2, hcur⟩
        · exact hmems us hus
      · intro us hus
        simp only [List.head?_cons, Option.some.injEq] at hus
        exact ⟨[], by rw [← hus, List.append_nil]⟩
    · rw [if_neg hclose]
      obtain ⟨uss, heq, hchain, hmems, hhead⟩ := ih (cur ++ [s]) _
        (fun x hx => hsmall x (by simp [hx]))
        (fun x hx => hmem x (by simp [hx]))
        (by
          intro u hu
          rcases List.mem_append.1 hu with hu | hu
          · exact hcur u hu
          · rcases List.mem_singleton.1 hu with rfl
            exact hmem u (by simp))
      refine ⟨uss, heq, hchain, hmems, ?_⟩
      intro us hus
      obtain ⟨ext, hext⟩ := hhead us hus
      exact ⟨[s] ++ ext, by rw [hext, List.append_assoc]⟩

/-- C3 (amended): for overlap `O > 0`, restricted to the assembled fragments
(before the minimal-length filter) of a text whose units all fit within
`maxSize` (so no word-splitting intervenes): each fragment is the space-join
of a nonempty block of sentence-units, and whenever a fragment consists of
*strictly more* than `O` units, the next fragment starts with its trailing
`O` units as a prefix block.  (With `O` or fewer units — not only with
fewer than `O`, as claimed — the next fragment starts without repeated
units.) -/
theorem chunk_overlap_seeding (text : List Char) (M O : Nat) (_hO : 0 < O)
    (hunits : ∀ u ∈ sentencesOf (normalizeText text), u.length ≤ M) :
    ∃ uss : List (List (List Char)),
      assembledChunks text M O = uss.map joinSp ∧
      uss.Chain' (fun us vs => O < us.length → List.IsPrefix (lastN O us) vs) ∧
      ∀ us ∈ uss, us ≠ [] ∧ ∀ u ∈ us, u ∈ sentencesOf (normalizeText text) := by
  obtain ⟨uss, h1, h2, h3, _⟩ := chunkLoop_decomp M O
    (sentencesOf (normalizeText text)) (sentencesOf (normalizeText text)) [] 0
    hunits (fun s hs => hs) (by simp)
  exact ⟨uss, h1, h2, h3⟩

/-- Witness for `chunk_overlap_seeding`: three 11-character units with
`maxSize = 23`, `overlap = 1` (the second assembled fragment starts with the
trailing unit of the first). -/
theorem chunk_overlap_seeding_witness :
    (0 < 1 ∧ ∀ u ∈ sentencesOf (normalizeText
        "aaaaaaaaaa. bbbbbbbbbb. cccccccccc.".toList), u.length ≤ 23) ∧
    ∃ uss : List (List (List Char)),
      assembledChunks "aaaaaaaaaa. bbbbbbbbbb. cccccccccc.".toList 23 1 =
        uss.map joinSp ∧
      uss.Chain' (fun us vs => 1 < us.length → List.IsPrefix (lastN 1 us) vs) ∧
      ∀ us ∈ uss, us ≠ [] ∧ ∀ u ∈ us, u ∈ sentencesOf (normalizeText
        "aaaaaaaaaa. bbbbbbbbbb. cccccccccc.".toList) :=
  ⟨⟨by decide, by decide⟩,
    chunk_overlap_seeding "aaaaaaaaaa. bbbbbbbbbb. cccccccccc.".toList 23 1
      (by decide) (by decide)⟩

/-! ## Streaming RAG responses

`handleStreamingRAGResponse` writes a `sources` event, then relays the
generation stream: each parsed line with a non-empty `response` field yields
a `token` event and extends the accumulator; a line with `done` yields a
`done` event carrying the HTML-formatted and raw accumulated text, then the
`data: [DONE]` sentinel, and ends the response.  A transport error yields an
`error` event with the error message and ends the response.  The model
records the sequence of events written to the response; the HTML formatter
and the sources metadata are opaque parameters (their construction —
`formatResponseAsHTML`, `buildSourcesMetadata` — does not affect event
structure). -/

/-- One parsed JSON line of the generation stream: its `response` increment
(`""` both for an absent field and for an empty one — JavaScript's
truthiness test treats them alike) and its `done` flag. -/
structure StreamMsg where
  response : String
  done : Bool
deriving DecidableEq

/-- How the transport ends after the data messages: a normal close, or an
`error` event on the stream. -/
inductive StreamEnd where
  | closed : StreamEnd
  | errored : String → StreamEnd
deriving DecidableEq

/-- The server-sent events written to the response, with the sources
payload abstract. -/
inductive SSEEvent (α : Type) where
  | sources : α → SSEEvent α
  | token : String → SSEEvent α
  | doneEvent : (content : String) → (rawAnswer : String) → SSEEvent α
  | doneSentinel : SSEEvent α
  | errorEvent : String → SSEEvent α
deriving DecidableEq

/-- The `response.data.on('data', ...)` / `on('error', ...)` handlers:
processes the stream messages with the accumulated `fullResponse`, then the
terminal transport signal.  After `json.done` the response is ended, so
nothing further is written. -/
def processStream {α : Type} (format : String → String) :
    String → List StreamMsg → StreamEnd → List (SSEEvent α)
  | _, [], StreamEnd.closed => []
  | _, [], StreamEnd.errored msg => [SSEEvent.errorEvent msg]
  | acc, m :: ms, fin =>
    let tok : List (SSEEvent α) :=
      if m.response ≠ "" then [SSEEvent.token m.response] else []
    let acc' := if m.response ≠ "" then acc ++ m.response else acc
    if m.done then
      tok ++ [SSEEvent.doneEvent (format acc') acc', SSEEvent.doneSentinel]
    else
      tok ++ processStream format acc' ms fin

/-- `handleStreamingRAGResponse`: the sources event is written first, before
any generated text, then the stream is relayed. -/
def handleStreamingRAGResponse {α : Type} (format : String → String)
    (sources : α) (msgs : List StreamMsg) (fin : StreamEnd) :
    List (SSEEvent α) :=
  SSEEvent.sources sources :: processStream format "" msgs fin

/-- C5: for increments `["Hello", " world"]` followed by completion, the
caller receives exactly: the citations (sources) event, the token events in
order, a completion event carrying the display form (the formatter applied
to the accumulator) and the raw accumulated text, and the terminal
sentinel. -/
theorem streaming_event_order {α : Type} (format : String → String) (meta : α) :
    handleStreamingRAGResponse format meta
        [⟨"Hello", false⟩, ⟨" world", false⟩, ⟨"", true⟩] StreamEnd.closed =
      [SSEEvent.sources meta, SSEEvent.token "Hello", SSEEvent.token " world",
        SSEEvent.doneEvent (format "Hello world") "Hello world",
        SSEEvent.doneSentinel] := rfl

/-- C6 counterexample: when the transport errors after a token, the code
writes the error event and closes the stream — the terminal sentinel is
**not** emitted (`res.end()` follows the error event directly, with no
`data: [DONE]` write). -/
theorem streaming_error_counterexample :
    handleStreamingRAGResponse (fun s => s) (0 : Nat) [⟨"Hello", false⟩]
        (StreamEnd.errored "boom") =
      [SSEEvent.sources 0, SSEEvent.token "Hello", SSEEvent.errorEvent "boom"] ∧
    SSEEvent.doneSentinel ∉
      handleStreamingRAGResponse (fun s => s) (0 : Nat) [⟨"Hello", false⟩]
        (StreamEnd.errored "boom") := by
  refine ⟨rfl, ?_⟩
  decide

/-- The token events of a message list. -/
def tokenEvents {α : Type} (msgs : List StreamMsg) : List (SSEEvent α) :=
  msgs.foldr
    (fun m acc =>
      (if m.response ≠ "" then [SSEEvent.token m.response] else []) ++ acc) []

theorem tokenEvents_no_sentinel {α : Type} (msgs : List StreamMsg) :
    SSEEvent.doneSentinel ∉ (tokenEvents msgs : List (SSEEvent α)) := by
  induction msgs with
  | nil => simp [tokenEvents]
  | cons m ms ih =>
    intro hmem
    rw [tokenEvents, List.foldr_cons] at hmem
    rcases List.mem_append.1 hmem with h | h
    · by_cases hr : m.response ≠ ""
      · rw [if_pos hr] at h
        simp at h
      · rw [if_neg hr] at h
        cases h
    · exact ih h

/-- C6 (amended): when the transport errors before any `done` message, the
stream carries the sources event, the token events, and then the error
event with the error's message as the **final** event — no terminal
sentinel is emitted before the stream closes. -/
theorem streaming_error_no_sentinel {α : Type} (format : String → String)
    (meta : α) (msgs : List StreamMsg) (e : String)
    (hnd : ∀ m ∈ msgs, m.done = false) :
    handleStreamingRAGResponse format meta msgs (StreamEnd.errored e) =
      SSEEvent.sources meta ::
        (tokenEvents msgs ++ [SSEEvent.errorEvent e]) ∧
    SSEEvent.doneSentinel ∉
      handleStreamingRAGResponse format meta msgs (StreamEnd.errored e) := by
  have hproc : ∀ (acc : String) (ms : List StreamMsg),
      (∀ m ∈ ms, m.done = false) →
      processStream (α := α) format acc ms (StreamEnd.errored e) =
        tokenEvents ms ++ [SSEEvent.errorEvent e] := by
    intro acc ms
    induction ms generalizing acc with
    | nil =>
      intro _
      simp [processStream, tokenEvents]
    | cons m ms ih =>
      intro hms
      have hmdone : m.done = false := hms m (by simp)
      rw [processStream]
      rw [if_neg (by simp [hmdone])]
      rw [ih _ (fun x hx => hms x (by simp [hx]))]
      simp only [tokenEvents, List.foldr_cons, List.append_assoc]

  constructor
  · unfold handleStreamingRAGResponse
    rw [hproc "" msgs hnd]
  · unfold handleStreamingRAGResponse
    rw [hproc "" msgs hnd]
    intro hmem
    rcases List.mem_cons.1 hmem with h | h
    · cases h
    · rcases List.mem_append.1 h with h | h
      · exact tokenEvents_no_sentinel msgs h
      · simp at h

/-- Witness for `streaming_error_no_sentinel` at one concrete token. -/
theorem streaming_error_no_sentinel_witness :
    (∀ m ∈ [(⟨"Hi", false⟩ : StreamMsg)], m.done = false) ∧
    (handleStreamingRAGResponse (fun s => s) (0 : Nat) [⟨"Hi", false⟩]
        (StreamEnd.errored "boom") =
      SSEEvent.sources 0 ::
        (tokenEvents [⟨"Hi", false⟩] ++ [SSEEvent.errorEvent "boom"]) ∧
    SSEEvent.doneSentinel ∉
      handleStreamingRAGResponse (fun s => s) (0 : Nat) [⟨"Hi", false⟩]
        (StreamEnd.errored "boom")) :=
  ⟨by decide,
    streaming_error_no_sentinel (fun s => s) 0 [⟨"Hi", false⟩] "boom" (by decide)⟩

end ChatRAG
